import Mathlib

/-!
Verification of the PDF outline extraction program (`process_pdfs.py`).

The program turns a PDF into a title plus a leveled outline (H1–H3).  We give a
shallow embedding of its pure core: text is `List Char`, font sizes and
coordinates are `ℚ`, glyphs carry optional fields (a `none` field models a
missing dictionary key, read through Python's `dict.get` defaults), and
fallible external reads (metadata, bookmark destination resolution, page text
extraction) are `Option`-valued inputs.  Each definition mirrors the function
of the same name in the source; `…Spec` definitions restate the natural
language specification and are compared with the source-derived ones.
-/

namespace ProcessPdfs

/-! ### Text helpers (Python `str` operations on `List Char`) -/

/-- Characters treated as whitespace by Python's `str.strip` and the regex
class `\s` (restricted to ASCII). -/
def isPySpace (c : Char) : Bool :=
  c = ' ' || c = '\t' || c = '\n' || c = '\r' || c = '\x0b' || c = '\x0c'

/-- Python `str.strip()`. -/
def pyStrip (cs : List Char) : List Char :=
  ((cs.dropWhile isPySpace).reverse.dropWhile isPySpace).reverse

/-- Python `str.lower()` (ASCII). -/
def pyLower (cs : List Char) : List Char :=
  cs.map Char.toLower

/-- Test the first character of a list. -/
def headIs (p : Char → Bool) : List Char → Bool
  | [] => false
  | c :: _ => p c

/-- Word characters for the regex class `\w` (ASCII). -/
def isWordChar (c : Char) : Bool :=
  c.isAlphanum || c = '_'

/-- Python `text.endswith((':',))`. -/
def endsWithColon (cs : List Char) : Bool :=
  headIs (fun c => c = ':') cs.reverse

/-- Python `str.split('\n')` (keeps empty pieces; `[]` splits to `[[]]`). -/
def splitNl : List Char → List (List Char)
  | [] => [[]]
  | c :: cs =>
    if c = '\n' then [] :: splitNl cs
    else
      match splitNl cs with
      | [] => [[c]]
      | h :: t => (c :: h) :: t

/-- Concatenation of the images of a list — used for Python `''.join`. -/
def concatMap (f : α → List β) : List α → List β
  | [] => []
  | x :: xs => f x ++ concatMap f xs

/-! ### The heading classifier (`is_potential_heading`) -/

/-- Embedding of `re.match(r'^\d+\.?\s+', t)`: one or more digits, an optional dot, then at
least one whitespace character.  Backtracking cannot help this pattern, so the
greedy reading is exact. -/
def matchNumbered (cs : List Char) : Bool :=
  let ds := cs.takeWhile Char.isDigit
  let rest := cs.dropWhile Char.isDigit
  !ds.isEmpty &&
    (match rest with
     | '.' :: r => headIs isPySpace r
     | r => headIs isPySpace r)

/-- Embedding of `re.match(r'^[A-Z][a-z]*\s+[A-Z]', t)`: a capitalized word followed by
whitespace and another capital. -/
def matchTitleCase (cs : List Char) : Bool :=
  match cs with
  | [] => false
  | c :: rest =>
    c.isUpper &&
      (let r1 := rest.dropWhile Char.isLower
       headIs isPySpace r1 && headIs Char.isUpper (r1.dropWhile isPySpace))

/-- Embedding of `re.match(r'^[A-Z\s]+$', t)`: the whole line is upper-case letters and
whitespace (nonempty). -/
def matchAllCaps (cs : List Char) : Bool :=
  !cs.isEmpty && cs.all (fun c => c.isUpper || isPySpace c)

/-- Embedding of `re.match(r'^\w+\.\d+', t)`: word characters, a dot, then a digit.  Since
`.` is not a word character, `\w+` must swallow the maximal word run. -/
def matchDotted (cs : List Char) : Bool :=
  let w := cs.takeWhile isWordChar
  let rest := cs.dropWhile isWordChar
  !w.isEmpty &&
    (match rest with
     | '.' :: r => headIs Char.isDigit r
     | _ => false)

/-- The loop over `heading_patterns` in source order. -/
def anyHeadingPattern (cs : List Char) : Bool :=
  matchNumbered cs || matchTitleCase cs || matchAllCaps cs || matchDotted cs

/-- The classifier `is_potential_heading(text, font_size, avg_font_size, page_width)` from the
source: strips the text, rejects very short/long lines, rejects long lines not
ending in a colon, then accepts on any lexical pattern or on
`font_size > avg_font_size * 1.1`.  The page width is received but unused,
exactly as in the source. -/
def is_potential_heading (text : List Char) (font_size avg_font_size : ℚ)
    (page_width : ℚ) : Bool :=
  let t := pyStrip text
  if t.length < 3 || 150 < t.length then false
  else if 100 < t.length && !endsWithColon t then false
  else if anyHeadingPattern t then true
  else decide (avg_font_size * (11/10) < font_size)

/-- The specification's rule table for the classifier: ALL of the two length
gates AND ANY of the four lexical patterns or the font-size rule. -/
def headingSpec (text : List Char) (s a : ℚ) : Bool :=
  let t := pyStrip text
  (decide (3 ≤ t.length) && decide (t.length ≤ 150)) &&
  (decide (t.length ≤ 100) || endsWithColon t) &&
  (matchNumbered t || matchTitleCase t || matchAllCaps t || matchDotted t ||
    decide (a * (11/10) < s))

/-- C2: the classifier accepts a line iff the trimmed length lies in `[3,150]`,
the length is at most 100 or the line ends with `':'`, and at least one of the
four lexical patterns matches or the dominant size exceeds 1.1 times the
document average. -/
theorem is_potential_heading_spec (text : List Char) (s a w : ℚ) :
    is_potential_heading text s a w = headingSpec text s a := by
  unfold is_potential_heading headingSpec
  by_cases h1 : (pyStrip text).length < 3
  · have h2 : ¬ (3 ≤ (pyStrip text).length) := by omega
    simp [h1, h2]
  · by_cases h3 : 150 < (pyStrip text).length
    · have h4 : ¬ ((pyStrip text).length ≤ 150) := by omega
      simp [h1, h3, h4]
    · have e1 : 3 ≤ (pyStrip text).length := by omega
      have e2 : (pyStrip text).length ≤ 150 := by omega
      by_cases h5 : 100 < (pyStrip text).length
      · have h6 : ¬ ((pyStrip text).length ≤ 100) := by omega
        by_cases h7 : endsWithColon (pyStrip text)
        · simp [h1, h3, h5, h6, h7, e1, e2, anyHeadingPattern, Bool.or_assoc]
        · simp [h1, h3, h5, h6, h7, e1, e2]
      · have h8 : (pyStrip text).length ≤ 100 := by omega
        simp [h1, h3, h5, h8, e1, e2, anyHeadingPattern, Bool.or_assoc]

/-! ### The font-size hierarchy mapper (`get_heading_level`) -/

/-- Distinct elements of a list, first occurrence first, with an accumulator of
already-seen values — the distinct-value set `set(...)` of the source. -/
def dedupFSAux (seen : List ℚ) : List ℚ → List ℚ
  | [] => []
  | x :: xs =>
    if seen.contains x then dedupFSAux seen xs
    else x :: dedupFSAux (x :: seen) xs

/-- Distinct elements of a list (first-seen order). -/
def dedupFS (l : List ℚ) : List ℚ :=
  dedupFSAux [] l

/-- Embedding of `sorted(set(l), reverse=True)`: the distinct values sorted descending. -/
def sortedDescDistinct (l : List ℚ) : List ℚ :=
  (dedupFS l).mergeSort (fun a b => decide (b ≤ a))

/-- The mapper `get_heading_level(font_size, font_size_hierarchy)` from the source: with
at most one distinct size everything is `H1`; otherwise the 0-based index of
the size in the descending distinct list gives `H{min(index+1, 3)}`, and a size
absent from the list (Python's `ValueError` branch) falls back to `H3`. -/
def get_heading_level (font_size : ℚ) (font_size_hierarchy : List ℚ) : String :=
  let sorted_sizes := sortedDescDistinct font_size_hierarchy
  if sorted_sizes.length ≤ 1 then "H1"
  else
    match sorted_sizes.findIdx? (fun x => decide (x = font_size)) with
    | some index => "H" ++ toString (min (index + 1) 3)
    | none => "H3"

/-- The 0-based rank of a size in the descending distinct hierarchy. -/
def rankOf (s : ℚ) (hier : List ℚ) : Nat :=
  (sortedDescDistinct hier).findIdx (fun x => decide (x = s))

/-- The numeric heading level the specification assigns to a size. -/
def headingLevelNum (s : ℚ) (hier : List ℚ) : Nat :=
  if (sortedDescDistinct hier).length ≤ 1 then 1 else min (rankOf s hier + 1) 3

theorem mem_dedupFSAux (x : ℚ) :
    ∀ (l : List ℚ) (seen : List ℚ), x ∈ l → x ∉ seen → x ∈ dedupFSAux seen l := by
  intro l
  induction l with
  | nil => intro seen h _; cases h
  | cons a t ih =>
    intro seen hx hseen
    unfold dedupFSAux
    by_cases hc : seen.contains a
    · rcases List.mem_cons.mp hx with rfl | hxt
      · exact absurd (List.elem_iff.mp hc) hseen
      · simp only [hc, if_true]
        exact ih seen hxt hseen
    · simp only [hc, if_false, Bool.false_eq_true]
      rcases List.mem_cons.mp hx with rfl | hxt
      · exact List.mem_cons_self _ _
      · by_cases hxa : x = a
        · exact hxa ▸ List.mem_cons_self _ _
        · refine List.mem_cons_of_mem _ (ih (a :: seen) hxt ?_)
          intro hmem
          rcases List.mem_cons.mp hmem with h1 | h2
          · exact hxa h1
          · exact hseen h2

theorem mem_sortedDescDistinct {s : ℚ} {hier : List ℚ} (h : s ∈ hier) :
    s ∈ sortedDescDistinct hier :=
  List.mem_mergeSort.mpr (mem_dedupFSAux s hier [] h (by simp))

theorem findIdx?_of_exists {α : Type} (p : α → Bool) :
    ∀ (l : List α), (∃ x ∈ l, p x = true) → l.findIdx? p = some (l.findIdx p) := by
  intro l
  induction l with
  | nil => rintro ⟨x, hx, -⟩; cases hx
  | cons a t ih =>
    rintro ⟨x, hx, hp⟩
    by_cases ha : p a
    · simp [List.findIdx?_cons, List.findIdx_cons, ha]
    · rcases List.mem_cons.mp hx with rfl | hxt
      · exact absurd hp ha
      · have hrec := ih ⟨x, hxt, hp⟩
        simp [List.findIdx?_cons, List.findIdx_cons, ha, hrec, List.findIdx?_succ]

/-- C3: a candidate size drawn from the hierarchy gets level
`H{min(rank+1, 3)}` (so `H1` whenever at most one distinct size exists), and
the numeric level is monotone in the font-size rank. -/
theorem get_heading_level_rank_spec (hier : List ℚ) (s t : ℚ)
    (hs : s ∈ hier) (ht : t ∈ hier) :
    get_heading_level s hier = "H" ++ toString (headingLevelNum s hier) ∧
    ((sortedDescDistinct hier).length ≤ 1 → get_heading_level s hier = "H1") ∧
    (rankOf s hier ≤ rankOf t hier →
      headingLevelNum s hier ≤ headingLevelNum t hier) := by
  refine ⟨?_, ?_, ?_⟩
  · unfold get_heading_level headingLevelNum
    by_cases hlen : (sortedDescDistinct hier).length ≤ 1
    · simp only [hlen, if_true]
      decide
    · have hmem : s ∈ sortedDescDistinct hier := mem_sortedDescDistinct hs
      have hfind : (sortedDescDistinct hier).findIdx? (fun x => decide (x = s))
          = some ((sortedDescDistinct hier).findIdx (fun x => decide (x = s))) :=
        findIdx?_of_exists _ _ ⟨s, hmem, by simp⟩
      simp [hlen, hfind, rankOf]
  · intro hlen
    unfold get_heading_level
    simp [hlen]
  · intro hr
    unfold headingLevelNum
    by_cases hlen : (sortedDescDistinct hier).length ≤ 1 <;> simp [hlen] <;> omega

theorem get_heading_level_rank_spec_witness :
    (12:ℚ) ∈ [(10:ℚ), 12] ∧ (10:ℚ) ∈ [(10:ℚ), 12] ∧
    (get_heading_level 12 [(10:ℚ), 12]
        = "H" ++ toString (headingLevelNum 12 [(10:ℚ), 12]) ∧
     ((sortedDescDistinct [(10:ℚ), 12]).length ≤ 1 →
        get_heading_level 12 [(10:ℚ), 12] = "H1") ∧
     (rankOf 12 [(10:ℚ), 12] ≤ rankOf 10 [(10:ℚ), 12] →
        headingLevelNum 12 [(10:ℚ), 12] ≤ headingLevelNum 10 [(10:ℚ), 12])) :=
  ⟨by decide, by decide,
    get_heading_level_rank_spec [(10:ℚ), 12] 12 10 (by decide) (by decide)⟩

/-! ### Heading candidates, deduplication and ordering -/

/-- A heading candidate of the content pipeline:
`{"text": ..., "page": ..., "font_size": ...}`. -/
structure Heading where
  text : List Char
  page : Nat
  font_size : ℚ
deriving DecidableEq

/-- The deduplication key `heading["text"].lower().strip()`. -/
def textKey (h : Heading) : List Char :=
  pyStrip (pyLower h.text)

/-- The dedup loop of `extract_outline_from_content`, carrying the
`seen_texts` set as a list of keys. -/
def dedupGo (seen : List (List Char)) : List Heading → List Heading
  | [] => []
  | h :: rest =>
    if !(seen.contains (textKey h)) && 2 < (textKey h).length then
      h :: dedupGo (textKey h :: seen) rest
    else dedupGo seen rest

/-- Deduplication starting from an empty `seen_texts` set. -/
def dedupHeadings (hs : List Heading) : List Heading :=
  dedupGo [] hs

/-- The specification's description of deduplication: walk the candidates in
document order and keep a candidate iff its key is longer than 2 and no
earlier candidate (kept or not) has the same key. -/
def firstOccSpec (prev : List Heading) : List Heading → List Heading
  | [] => []
  | h :: rest =>
    if 2 < (textKey h).length && prev.all (fun p => !(textKey p == textKey h)) then
      h :: firstOccSpec (prev ++ [h]) rest
    else firstOccSpec (prev ++ [h]) rest

theorem dedupGo_eq_firstOcc :
    ∀ (rest : List Heading) (seen : List (List Char)) (prev : List Heading),
      (∀ k, k ∈ seen ↔ ∃ p ∈ prev, textKey p = k ∧ 2 < k.length) →
      dedupGo seen rest = firstOccSpec prev rest := by
  intro rest
  induction rest with
  | nil => intro seen prev _; rfl
  | cons h t ih =>
    intro seen prev hinv
    unfold dedupGo firstOccSpec
    by_cases hk2 : 2 < (textKey h).length
    · by_cases hks : textKey h ∈ seen
      · have hc : seen.contains (textKey h) = true := List.elem_iff.mpr hks
        obtain ⟨p, hp, hpk, -⟩ := (hinv (textKey h)).mp hks
        have hall : prev.all (fun p => !(textKey p == textKey h)) = false := by
          rw [Bool.eq_false_iff]
          intro hcontra
          have := (List.all_eq_true.mp hcontra) p hp
          simp [hpk] at this
        rw [if_neg (by rw [hc]; simp), if_neg (by rw [hall]; simp)]
        refine ih seen (prev ++ [h]) ?_
        intro k
        rw [hinv k]
        constructor
        · rintro ⟨q, hq, hqk, hql⟩
          exact ⟨q, List.mem_append_left _ hq, hqk, hql⟩
        · rintro ⟨q, hq, hqk, hql⟩
          rcases List.mem_append.mp hq with hq1 | hq1
          · exact ⟨q, hq1, hqk, hql⟩
          · have : q = h := by simpa using hq1
            subst this
            exact ⟨p, hp, by rw [hpk, hqk], hql⟩
      · have hc : seen.contains (textKey h) = false := by
          rw [Bool.eq_false_iff]
          intro hcontra
          exact hks (List.elem_iff.mp hcontra)
        have hall : prev.all (fun p => !(textKey p == textKey h)) = true := by
          rw [List.all_eq_true]
          intro q hq
          simp only [Bool.not_eq_true', beq_eq_false_iff_ne, ne_eq]
          intro hqk
          exact hks ((hinv (textKey h)).mpr ⟨q, hq, hqk, hk2⟩)
        rw [if_pos (by rw [hc]; simp [hk2]), if_pos (by rw [hall]; simp [hk2])]
        congr 1
        refine ih (textKey h :: seen) (prev ++ [h]) ?_
        intro k
        constructor
        · intro hk
          rcases List.mem_cons.mp hk with rfl | hk1
          · exact ⟨h, List.mem_append_right _ (by simp), rfl, hk2⟩
          · obtain ⟨q, hq, hqk, hql⟩ := (hinv k).mp hk1
            exact ⟨q, List.mem_append_left _ hq, hqk, hql⟩
        · rintro ⟨q, hq, hqk, hql⟩
          rcases List.mem_append.mp hq with hq1 | hq1
          · exact List.mem_cons_of_mem _ ((hinv k).mpr ⟨q, hq1, hqk, hql⟩)
          · have : q = h := by simpa using hq1
            subst this
            exact hqk ▸ List.mem_cons_self _ _
    · rw [if_neg (by simp [hk2]), if_neg (by simp [hk2])]
      refine ih seen (prev ++ [h]) ?_
      intro k
      rw [hinv k]
      constructor
      · rintro ⟨q, hq, hqk, hql⟩
        exact ⟨q, List.mem_append_left _ hq, hqk, hql⟩
      · rintro ⟨q, hq, hqk, hql⟩
        rcases List.mem_append.mp hq with hq1 | hq1
        · exact ⟨q, hq1, hqk, hql⟩
        · have : q = h := by simpa using hq1
          subst this
          exact absurd (hqk ▸ hql) hk2

theorem dedupGo_pairwise :
    ∀ (rest : List Heading) (seen : List (List Char)),
      (dedupGo seen rest).Pairwise (fun a b => textKey a ≠ textKey b) ∧
      ∀ h ∈ dedupGo seen rest, textKey h ∉ seen := by
  intro rest
  induction rest with
  | nil => intro seen; exact ⟨List.Pairwise.nil, by simp [dedupGo]⟩
  | cons h t ih =>
    intro seen
    unfold dedupGo
    by_cases hcond : (!(seen.contains (textKey h)) && 2 < (textKey h).length) = true
    · rw [if_pos hcond]
      obtain ⟨hnc, -⟩ := Bool.and_eq_true_iff.mp hcond
      have hnotin : textKey h ∉ seen := by
        intro hmem
        have hceq : seen.contains (textKey h) = true := List.elem_iff.mpr hmem
        rw [hceq] at hnc
        simp at hnc
      obtain ⟨hpw, hni⟩ := ih (textKey h :: seen)
      refine ⟨List.Pairwise.cons ?_ hpw, ?_⟩
      · intro b hb
        have := hni b hb
        intro hkey
        exact this (hkey ▸ List.mem_cons_self _ _)
      · intro x hx
        rcases List.mem_cons.mp hx with rfl | hx1
        · exact hnotin
        · intro hmem
          exact hni x hx1 (List.mem_cons_of_mem _ hmem)
    · rw [if_neg hcond]
      exact ih seen

/-- The comparison key `(x["page"], -x["font_size"])` of the final sort, as a
boolean lexicographic order. -/
def headingLe (a b : Heading) : Bool :=
  decide (a.page < b.page) ||
    (decide (a.page = b.page) && decide (b.font_size ≤ a.font_size))

/-- Embedding of `unique_headings.sort(key=lambda x: (x["page"], -x["font_size"]))`. -/
def sortHeadings (hs : List Heading) : List Heading :=
  hs.mergeSort headingLe

/-- C4: deduplication keeps exactly the first occurrence, in document order, of
each case-insensitive trimmed text longer than 2 characters, so no two
surviving candidates — and hence no two entries of the sorted final list —
share a key. -/
theorem dedup_first_occurrence_spec (hs : List Heading) :
    dedupHeadings hs = firstOccSpec [] hs ∧
    (dedupHeadings hs).Pairwise (fun a b => textKey a ≠ textKey b) ∧
    (sortHeadings (dedupHeadings hs)).Pairwise (fun a b => textKey a ≠ textKey b) := by
  have hpw := (dedupGo_pairwise hs []).1
  refine ⟨dedupGo_eq_firstOcc hs [] [] (by simp), hpw, ?_⟩
  have hperm := List.mergeSort_perm (dedupHeadings hs) headingLe
  exact (List.Perm.pairwise_iff (fun hab => Ne.symm hab) hperm).mpr hpw

/-- C5: the sorted deduplicated candidate list is ordered by ascending page
and, within a page, by descending font size. -/
theorem sortHeadings_sorted_spec (hs : List Heading) :
    (sortHeadings hs).Pairwise
      (fun a b => a.page < b.page ∨ (a.page = b.page ∧ b.font_size ≤ a.font_size)) := by
  have htrans : ∀ a b c : Heading,
      headingLe a b = true → headingLe b c = true → headingLe a c = true := by
    intro a b c hab hbc
    simp only [headingLe, Bool.or_eq_true, Bool.and_eq_true, decide_eq_true_eq]
      at hab hbc ⊢
    rcases hab with h1 | ⟨h1, h2⟩ <;> rcases hbc with h3 | ⟨h3, h4⟩
    · exact Or.inl (h1.trans h3)
    · exact Or.inl (h3 ▸ h1)
    · exact Or.inl (h1 ▸ h3)
    · exact Or.inr ⟨h1.trans h3, h4.trans h2⟩
  have htotal : ∀ a b : Heading, (headingLe a b || headingLe b a) = true := by
    intro a b
    simp only [headingLe, Bool.or_eq_true, Bool.and_eq_true, decide_eq_true_eq]
    rcases Nat.lt_trichotomy a.page b.page with h | h | h
    · exact Or.inl (Or.inl h)
    · rcases le_total b.font_size a.font_size with hf | hf
      · exact Or.inl (Or.inr ⟨h, hf⟩)
      · exact Or.inr (Or.inr ⟨h.symm, hf⟩)
    · exact Or.inr (Or.inl h)
  have hp := List.sorted_mergeSort htrans htotal hs
  refine hp.imp ?_
  intro a b hab
  simpa only [headingLe, Bool.or_eq_true, Bool.and_eq_true, decide_eq_true_eq]
    using hab

/-! ### Glyphs, pages and the content pipeline (`extract_outline_from_content`) -/

/-- A pdfplumber character record.  `none` in a field models a missing
dictionary key, read by the source through `char.get(key, default)`. -/
structure PChar where
  text : List Char
  x0 : Option ℚ
  y0 : Option ℚ
  size : Option ℚ
deriving DecidableEq

/-- A page: its character records, its width, and the result of the external
`page.extract_text()` call (`none` models failure or no text object). -/
structure Page where
  chars : List PChar
  width : ℚ
  extractedText : Option (List Char)
deriving DecidableEq

/-- One entry of the final outline JSON. -/
structure OutlineEntry where
  level : String
  text : List Char
  page : Nat
deriving DecidableEq

/-- Embedding of `max(set(font_sizes), key=font_sizes.count)`: scan the distinct sizes and
keep the current winner unless a strictly more frequent size appears.  The
source iterates a Python `set`, whose order is interpreter-defined; we iterate
the distinct sizes in first-seen order, which is one concrete such order. -/
def dominant_font_size (font_sizes : List ℚ) : ℚ :=
  match dedupFS font_sizes with
  | [] => 0
  | d :: ds =>
    ds.foldl (fun best s =>
      if font_sizes.count best < font_sizes.count s then s else best) d

/-- All character records of the document in page order. -/
def allGlyphs (pages : List Page) : List PChar :=
  concatMap Page.chars pages

/-- The first pass of `extract_outline_from_content`: every `char.get('size', 0)`
that is strictly positive, in document order. -/
def collectFontSizes (pages : List Page) : List ℚ :=
  ((allGlyphs pages).map (fun c => c.size.getD 0)).filter (fun s => decide (0 < s))

/-- Python `sum` over rationals. -/
def sumQ (l : List ℚ) : ℚ :=
  l.foldl (· + ·) 0

/-- Arithmetic mean of a list of rationals. -/
def avgOf (l : List ℚ) : ℚ :=
  sumQ l / l.length

/-- Embedding of `avg_font_size = sum(all_font_sizes) / len(all_font_sizes)`. -/
def avg_font_size (pages : List Page) : ℚ :=
  avgOf (collectFontSizes pages)

/-- The document-wide mean over ALL glyph sizes, as the specification words
C7: no positivity filter. -/
def meanAllGlyphSizes (pages : List Page) : ℚ :=
  avgOf ((allGlyphs pages).map (fun c => c.size.getD 0))

/-- Ordering of a line's characters: Python's stable sort by `x.get('x0', 0)`. -/
def charLe (a b : PChar) : Bool :=
  decide (a.x0.getD 0 ≤ b.x0.getD 0)

/-- The characters of the line grouped at baseline `y`, sorted by `x0`. -/
def lineCharsAt (chars : List PChar) (y : ℚ) : List PChar :=
  (chars.filter (fun c => decide (c.y0.getD 0 = y))).mergeSort charLe

/-- Embedding of `''.join(char['text'] for char in line_chars).strip()`. -/
def lineText (lineChars : List PChar) : List Char :=
  pyStrip (concatMap PChar.text lineChars)

/-- Embedding of `sorted(lines.keys(), reverse=True)`: the distinct baselines, descending. -/
def pageYs (chars : List PChar) : List ℚ :=
  sortedDescDistinct (chars.map (fun c => c.y0.getD 0))

/-- The per-page loop of the second pass: reconstruct each line top-to-bottom,
skip empty lines, and keep those the classifier accepts.  `pageNumber` is the
1-indexed page number stored in the candidate. -/
def candidatesOfPage (avg : ℚ) (pageNumber : Nat) (pg : Page) : List Heading :=
  (pageYs pg.chars).filterMap (fun y =>
    let lc := lineCharsAt pg.chars y
    let t := lineText lc
    if t.isEmpty then none
    else
      let dfs := dominant_font_size (lc.map (fun c => c.size.getD avg))
      if is_potential_heading t dfs avg pg.width then some ⟨t, pageNumber, dfs⟩
      else none)

/-- The second pass over all pages, `page_num` starting at 0. -/
def candidatesFrom (avg : ℚ) : Nat → List Page → List Heading
  | _, [] => []
  | idx, pg :: rest =>
    candidatesOfPage avg (idx + 1) pg ++ candidatesFrom avg (idx + 1) rest

/-- The `unique_headings` list of the source: empty when no positive font size exists,
else the deduplicated, sorted candidate list. -/
def unique_headings (pages : List Page) : List Heading :=
  if collectFontSizes pages = [] then []
  else sortHeadings (dedupHeadings (candidatesFrom (avg_font_size pages) 0 pages))

/-- The function `extract_outline_from_content`: assign a level to every unique heading via
the font-size hierarchy drawn from that same list. -/
def extract_outline_from_content (pages : List Page) : List OutlineEntry :=
  let uh := unique_headings pages
  uh.map (fun h =>
    ⟨get_heading_level h.font_size (uh.map Heading.font_size), h.text, h.page⟩)

/-! ### C7: the global average font size -/

/-- A one-page document holding a glyph of size 10 and a glyph of size 0
(the `dict.get` default for a glyph with no size entry). -/
def c7Pages : List Page :=
  [⟨[⟨['A'], some 0, some 700, some 10⟩, ⟨['B'], some 5, some 700, some 0⟩], 612, none⟩]

/-- C7 counterexample: the pipeline's average skips non-positive sizes, so it
is 10 on `c7Pages`, while the mean over all glyph sizes is 5. -/
theorem avg_font_size_counterexample :
    avg_font_size c7Pages = 10 ∧ meanAllGlyphSizes c7Pages = 5 ∧
      avg_font_size c7Pages ≠ meanAllGlyphSizes c7Pages := by
  have h1 : collectFontSizes c7Pages = [(10:ℚ)] := by decide
  have h2 : (allGlyphs c7Pages).map (fun c => c.size.getD 0) = [(10:ℚ), 0] := by decide
  have e1 : avg_font_size c7Pages = 10 := by
    rw [avg_font_size, h1]
    norm_num [avgOf, sumQ]
  have e2 : meanAllGlyphSizes c7Pages = 5 := by
    rw [meanAllGlyphSizes, h2]
    norm_num [avgOf, sumQ]
  refine ⟨e1, e2, ?_⟩
  rw [e1, e2]
  norm_num

/-- C7 (amended): the global average used by the classifier is the arithmetic
mean of the strictly positive glyph font sizes (a missing size counts as the
default 0 and is excluded), and when no positive size exists — in particular
when the document has no glyphs — the content pipeline returns an empty
outline. -/
theorem avg_font_size_amended (pages : List Page) :
    avg_font_size pages
      = avgOf (((allGlyphs pages).map (fun c => c.size.getD 0)).filter
          (fun s => decide (0 < s))) ∧
    (((allGlyphs pages).map (fun c => c.size.getD 0)).filter (fun s => decide (0 < s)) = [] →
      extract_outline_from_content pages = []) := by
  constructor
  · rfl
  · intro h
    have hc : collectFontSizes pages = [] := h
    unfold extract_outline_from_content unique_headings
    simp [hc]

theorem avg_font_size_amended_witness :
    (((allGlyphs ([] : List Page)).map (fun c => c.size.getD 0)).filter
        (fun s => decide (0 < s)) = []) ∧
    extract_outline_from_content ([] : List Page) = [] :=
  ⟨rfl, (avg_font_size_amended []).2 rfl⟩

/-! ### C9: the `ValueError` fallback of `get_heading_level` is unreachable -/

/-- The guard of the fallback branch of `get_heading_level`: more than one
distinct size, yet the queried size is absent from the sorted list (in Python,
`sorted_sizes.index` raising `ValueError`). -/
def hits_value_error (s : ℚ) (hier : List ℚ) : Bool :=
  !(decide ((sortedDescDistinct hier).length ≤ 1)) &&
    ((sortedDescDistinct hier).findIdx? (fun x => decide (x = s))).isNone

theorem hits_value_error_eq_false (hs : List Heading) (h : Heading) (hm : h ∈ hs) :
    hits_value_error h.font_size (hs.map Heading.font_size) = false := by
  have hmem : h.font_size ∈ hs.map Heading.font_size := List.mem_map_of_mem _ hm
  have hsd := mem_sortedDescDistinct hmem
  have hfind := findIdx?_of_exists (fun x => decide (x = h.font_size)) _
    ⟨h.font_size, hsd, by simp⟩
  unfold hits_value_error
  rw [hfind]
  simp

/-- C9: every `get_heading_level` query of the content pipeline passes a size
drawn from the hierarchy list itself, so the fallback branch that returns
`"H3"` for an absent size can never fire there. -/
theorem heading_level_no_fallback (pages : List Page) :
    (unique_headings pages).all
      (fun h => !(hits_value_error h.font_size
        ((unique_headings pages).map Heading.font_size))) = true := by
  rw [List.all_eq_true]
  intro h hm
  simp [hits_value_error_eq_false (unique_headings pages) h hm]

/-! ### C10: lines whose glyphs all lack a font size -/

theorem dedupFSAux_nil_of_seen :
    ∀ (l : List ℚ) (seen : List ℚ), (∀ x ∈ l, x ∈ seen) → dedupFSAux seen l = [] := by
  intro l
  induction l with
  | nil => intro seen _; rfl
  | cons x xs ih =>
    intro seen hmem
    unfold dedupFSAux
    rw [if_pos (List.elem_iff.mpr (hmem x (List.mem_cons_self _ _)))]
    exact ih seen (fun y hy => hmem y (List.mem_cons_of_mem _ hy))

theorem dominant_const (l : List ℚ) (a : ℚ) (hne : l ≠ []) (h : ∀ x ∈ l, x = a) :
    dominant_font_size l = a := by
  cases l with
  | nil => exact absurd rfl hne
  | cons x xs =>
    have hx : x = a := h x (List.mem_cons_self _ _)
    have haux : dedupFSAux [x] xs = [] := by
      apply dedupFSAux_nil_of_seen
      intro y hy
      rw [h y (List.mem_cons_of_mem _ hy), ← hx]
      simp
    have hd : dedupFS (x :: xs) = [x] := by
      unfold dedupFS dedupFSAux
      rw [if_neg (by simp), haux]
    unfold dominant_font_size
    rw [hd]
    simpa using hx

theorem foldl_add_pos :
    ∀ (l : List ℚ) (acc : ℚ), 0 ≤ acc → (∀ x ∈ l, 0 < x) → l ≠ [] →
      0 < l.foldl (· + ·) acc := by
  intro l
  induction l with
  | nil => intro acc _ _ h; exact absurd rfl h
  | cons x xs ih =>
    intro acc hacc hall _
    have hx : 0 < x := hall x (List.mem_cons_self _ _)
    rw [List.foldl_cons]
    by_cases hxs : xs = []
    · subst hxs
      rw [List.foldl_nil]
      linarith
    · exact ih (acc + x) (by linarith)
        (fun y hy => hall y (List.mem_cons_of_mem _ hy)) hxs

theorem avgOf_pos (l : List ℚ) (hne : l ≠ []) (hall : ∀ x ∈ l, 0 < x) :
    0 < avgOf l := by
  have hsum : 0 < sumQ l := foldl_add_pos l 0 le_rfl hall hne
  have hlen : (0:ℚ) < l.length := by
    have := List.length_pos.mpr hne
    exact_mod_cast this
  exact div_pos hsum hlen

/-- C10: if every glyph of a line lacks a font-size field, the dominant size
computed through `char.get('size', avg_font_size)` is the document average
itself, and since the font-size rule is the strict test `a * 1.1 < a`, which a
positive average falsifies, the classifier can accept the line only through a
lexical pattern.  The last conjunct shows the positivity assumption holds for
the pipeline's own average, the mean of the positive collected sizes. -/
theorem missing_size_line_spec (cs : List PChar) (a : ℚ)
    (hne : cs ≠ []) (hall : ∀ c ∈ cs, c.size = none) (hpos : 0 < a) :
    dominant_font_size (cs.map (fun c => c.size.getD a)) = a ∧
    (∀ txt w, is_potential_heading txt
        (dominant_font_size (cs.map (fun c => c.size.getD a))) a w = true →
      anyHeadingPattern (pyStrip txt) = true) ∧
    (∀ pages : List Page, collectFontSizes pages ≠ [] →
      0 < avg_font_size pages) := by
  have hdom : dominant_font_size (cs.map (fun c => c.size.getD a)) = a := by
    apply dominant_const
    · simpa using hne
    · intro x hx
      obtain ⟨c, hc, hcx⟩ := List.mem_map.mp hx
      rw [← hcx, hall c hc]
      rfl
  refine ⟨hdom, ?_, ?_⟩
  · intro txt w hacc
    rw [hdom] at hacc
    simp only [is_potential_heading] at hacc
    split at hacc
    · exact absurd hacc (by simp)
    · split at hacc
      · exact absurd hacc (by simp)
      · split at hacc
        · assumption
        · have hlt : a * (11/10) < a := of_decide_eq_true hacc
          linarith
  · intro pages hne2
    apply avgOf_pos _ hne2
    intro x hx
    exact of_decide_eq_true (List.mem_filter.mp hx).2

/-- A character record with no size, no coordinates. -/
def pcNoSize : PChar :=
  ⟨['x'], none, none, none⟩

theorem missing_size_line_spec_witness :
    ([pcNoSize] ≠ ([] : List PChar)) ∧ (∀ c ∈ [pcNoSize], c.size = none) ∧
    ((0:ℚ) < 5) ∧
    (dominant_font_size ([pcNoSize].map (fun c => c.size.getD 5)) = 5 ∧
     (∀ txt w, is_potential_heading txt
         (dominant_font_size ([pcNoSize].map (fun c => c.size.getD 5))) 5 w = true →
       anyHeadingPattern (pyStrip txt) = true) ∧
     (∀ pages : List Page, collectFontSizes pages ≠ [] →
       0 < avg_font_size pages)) :=
  ⟨by decide, by decide, by decide,
    missing_size_line_spec [pcNoSize] 5 (by decide) (by decide) (by decide)⟩

/-! ### The title resolver (`extract_title`) -/

/-- A document as the title resolver sees it: the raw `/Title` metadata value
(`none` models unreadable or absent metadata) and the pages. -/
structure PDFDoc where
  metadataTitle : Option (List Char)
  pages : List Page
deriving DecidableEq

/-- The function `extract_title_from_metadata`: the metadata title, stripped, if non-empty. -/
def extract_title_from_metadata (doc : PDFDoc) : Option (List Char) :=
  match doc.metadataTitle with
  | none => none
  | some raw =>
    let t := pyStrip raw
    if t.isEmpty then none else some t

/-- The line filter of the title heuristics:
`len(line) > 5 and len(line) < 150` on the stripped line. -/
def goodTitleLine (l : List Char) : Bool :=
  decide (5 < (pyStrip l).length) && decide ((pyStrip l).length < 150)

/-- Maximum over a nonempty list of rationals (`0` for the empty list, which the
source never queries). -/
def maxQ : List ℚ → ℚ
  | [] => 0
  | x :: xs => xs.foldl max x

/-- The function `extract_title_from_content`: on the first page, take the glyph group of
the largest exact font size, join and strip its text, and return the first
line of length in `[6,149]`; otherwise fall back to the first such line of
`page.extract_text()`.  A first page without character records returns `none`
immediately, skipping the fallback. -/
def extract_title_from_content (doc : PDFDoc) : Option (List Char) :=
  match doc.pages.head? with
  | none => none
  | some pg =>
    if pg.chars.isEmpty then none
    else
      let largest := maxQ (pg.chars.map (fun c => c.size.getD 0))
      let group := pg.chars.filter (fun c => decide (c.size.getD 0 = largest))
      match (splitNl (pyStrip (concatMap PChar.text group))).find? goodTitleLine with
      | some line => some (pyStrip line)
      | none =>
        match pg.extractedText with
        | none => none
        | some txt =>
          if txt.isEmpty then none
          else
            match (splitNl txt).find? goodTitleLine with
            | some line => some (pyStrip line)
            | none => none

/-- The literal final fallback. -/
def untitled : List Char :=
  "Untitled Document".toList

/-- The function `extract_title`: metadata first, then content, then the literal. -/
def extract_title (doc : PDFDoc) : List Char :=
  match extract_title_from_metadata doc with
  | some t => t
  | none =>
    match extract_title_from_content doc with
    | some t => t
    | none => untitled

/-- Step 1 of the specification's chain: the trimmed metadata title when
non-empty. -/
def titleStep1 (doc : PDFDoc) : Option (List Char) :=
  doc.metadataTitle.bind (fun raw =>
    if (pyStrip raw).isEmpty then none else some (pyStrip raw))

/-- Step 2 of the specification's chain: on the first page, the first line of
the largest-exact-font-size glyph group whose trimmed length is in `[6,149]`. -/
def titleStep2 (doc : PDFDoc) : Option (List Char) :=
  doc.pages.head?.bind (fun pg =>
    let largest := maxQ (pg.chars.map (fun c => c.size.getD 0))
    let group := pg.chars.filter (fun c => decide (c.size.getD 0 = largest))
    match (splitNl (pyStrip (concatMap PChar.text group))).find? goodTitleLine with
    | some line => some (pyStrip line)
    | none => none)

/-- Step 3 of the specification's chain: the first extracted text line of the
first page whose trimmed length is in `[6,149]`. -/
def titleStep3 (doc : PDFDoc) : Option (List Char) :=
  doc.pages.head?.bind (fun pg =>
    pg.extractedText.bind (fun txt =>
      match (splitNl txt).find? goodTitleLine with
      | some line => some (pyStrip line)
      | none => none))

/-- First success of an ordered chain of optional steps, with a default. -/
def firstSomeOr (dflt : List Char) : List (Option (List Char)) → List Char
  | [] => dflt
  | some t :: _ => t
  | none :: rest => firstSomeOr dflt rest

/-- The specification's title chain: steps 1–3 in order, else the literal. -/
def titleSpecChain (doc : PDFDoc) : List Char :=
  firstSomeOr untitled [titleStep1 doc, titleStep2 doc, titleStep3 doc]

theorem goodTitleLine_strip_ne (l : List Char) (hl : goodTitleLine l = true) :
    pyStrip l ≠ [] := by
  have h5 : 5 < (pyStrip l).length :=
    of_decide_eq_true (Bool.and_eq_true_iff.mp hl).1
  intro hnil
  rw [hnil] at h5
  simp at h5

theorem titleStep1_eq_metadata (doc : PDFDoc) :
    titleStep1 doc = extract_title_from_metadata doc := by
  unfold titleStep1 extract_title_from_metadata
  cases hmt : doc.metadataTitle <;> simp

theorem goodTitleLine_nil : goodTitleLine [] = false := by decide

/-- C6: the title is the first success of the ordered chain — non-empty
metadata title, largest-font first-page line, first extracted first-page
line, the literal fallback — and is always non-empty.  The hypothesis is the
invariant of the external text extractor: a page with no character records
extracts no text (pdfplumber derives `extract_text` from `chars`). -/
theorem extract_title_chain_spec (doc : PDFDoc)
    (hext : ∀ pg, doc.pages.head? = some pg → pg.chars = [] →
      pg.extractedText.getD [] = []) :
    extract_title doc = titleSpecChain doc ∧ extract_title doc ≠ [] := by
  have huntitled : untitled ≠ [] := by decide
  unfold extract_title titleSpecChain
  rw [titleStep1_eq_metadata]
  cases hm : extract_title_from_metadata doc with
  | some t =>
    refine ⟨rfl, ?_⟩
    unfold extract_title_from_metadata at hm
    rcases hmt : doc.metadataTitle with - | raw
    · rw [hmt] at hm; cases hm
    · rw [hmt] at hm
      simp only at hm
      by_cases he : (pyStrip raw).isEmpty
      · rw [if_pos he] at hm; cases hm
      · rw [if_neg he] at hm
        cases hm
        simpa using he
  | none =>
    simp only [firstSomeOr]
    cases hp : doc.pages.head? with
    | none =>
      have hc : extract_title_from_content doc = none := by
        unfold extract_title_from_content
        rw [hp]
      have h2 : titleStep2 doc = none := by unfold titleStep2; rw [hp]; rfl
      have h3 : titleStep3 doc = none := by unfold titleStep3; rw [hp]; rfl
      rw [hc, h2, h3]
      exact ⟨rfl, huntitled⟩
    | some pg =>
      by_cases hchars : pg.chars.isEmpty
      · have hchars' : pg.chars = [] := by simpa using hchars
        have hc : extract_title_from_content doc = none := by
          simp only [extract_title_from_content, hp]
          rw [if_pos hchars]
        have h2 : titleStep2 doc = none := by
          unfold titleStep2
          rw [hp]
          simp only [Option.some_bind, hchars', List.filter_nil, concatMap]
          have : pyStrip [] = [] := rfl
          rw [this]
          simp [splitNl, List.find?, goodTitleLine_nil]
        have h3 : titleStep3 doc = none := by
          unfold titleStep3
          rw [hp]
          simp only [Option.some_bind]
          rcases het : pg.extractedText with - | txt
          · rfl
          · have : txt = [] := by
              have := hext pg hp hchars'
              rw [het] at this
              simpa using this
            subst this
            simp [splitNl, List.find?, goodTitleLine_nil]
        rw [hc, h2, h3]
        exact ⟨rfl, huntitled⟩
      · have hstep2 : titleStep2 doc =
            (match (splitNl (pyStrip (concatMap PChar.text
                (pg.chars.filter (fun c => decide (c.size.getD 0
                  = maxQ (pg.chars.map (fun c => c.size.getD 0)))))))).find? goodTitleLine with
             | some line => some (pyStrip line)
             | none => none) := by
          unfold titleStep2
          rw [hp]
          rfl
        have hcontent : extract_title_from_content doc =
            (match (splitNl (pyStrip (concatMap PChar.text
                (pg.chars.filter (fun c => decide (c.size.getD 0
                  = maxQ (pg.chars.map (fun c => c.size.getD 0)))))))).find? goodTitleLine with
             | some line => some (pyStrip line)
             | none =>
               match pg.extractedText with
               | none => none
               | some txt =>
                 if txt.isEmpty then none
                 else
                   match (splitNl txt).find? goodTitleLine with
                   | some line => some (pyStrip line)
                   | none => none) := by
          simp only [extract_title_from_content, hp]
          rw [if_neg hchars]
        cases hfind : (splitNl (pyStrip (concatMap PChar.text
            (pg.chars.filter (fun c => decide (c.size.getD 0
              = maxQ (pg.chars.map (fun c => c.size.getD 0)))))))).find? goodTitleLine with
        | some line =>
          rw [hcontent, hfind, hstep2, hfind]
          refine ⟨rfl, goodTitleLine_strip_ne line (List.find?_some hfind)⟩
        | none =>
          rw [hcontent, hfind, hstep2, hfind]
          simp only [firstSomeOr]
          have h3 : titleStep3 doc =
              pg.extractedText.bind (fun txt =>
                match (splitNl txt).find? goodTitleLine with
                | some line => some (pyStrip line)
                | none => none) := by
            unfold titleStep3
            rw [hp]
            rfl
          rcases het : pg.extractedText with - | txt
          · rw [h3, het]
            exact ⟨rfl, huntitled⟩
          · rw [h3, het]
            simp only [Option.some_bind]
            by_cases hemp : txt.isEmpty
            · have htxt : txt = [] := by simpa using hemp
              rw [if_pos hemp, htxt]
              simp only [splitNl]
              rw [show (List.find? goodTitleLine [[]]) = none by
                simp [List.find?, goodTitleLine_nil]]
              exact ⟨rfl, huntitled⟩
            · rw [if_neg hemp]
              cases hfind3 : (splitNl txt).find? goodTitleLine with
              | some line =>
                exact ⟨rfl, goodTitleLine_strip_ne line (List.find?_some hfind3)⟩
              | none => exact ⟨rfl, huntitled⟩

/-- A concrete document for the witness: metadata present and non-empty. -/
def c6Doc : PDFDoc :=
  ⟨some ("  Annual Report 2024 ".toList), []⟩

theorem extract_title_chain_spec_witness :
    (∀ pg, c6Doc.pages.head? = some pg → pg.chars = [] →
      pg.extractedText.getD [] = []) ∧
    (extract_title c6Doc = titleSpecChain c6Doc ∧ extract_title c6Doc ≠ []) :=
  ⟨(fun pg h => by cases h),
    extract_title_chain_spec c6Doc (fun pg h => by cases h)⟩

/-! ### The bookmark tree flattener (`process_bookmark`) -/

/-- A bookmark item as `process_bookmark` receives it: either a destination
node — title, resolved 0-indexed destination page (`none` when the item has no
page or resolution raises), and the children reached through the `children`
attribute — or a plain list of items (`isinstance(bookmark_item, list)`). -/
inductive BItem where
  | node (title : List Char) (dest : Option Nat) (children : List BItem)
  | group (items : List BItem)

/-- The page field: `get_destination_page_number(...) + 1`, or the default 1 when
resolution fails. -/
def destPage : Option Nat → Nat
  | some p => p + 1
  | none => 1

/-- The level string `f"H{min(level, 3)}"`. -/
def hLevel (level : Nat) : String :=
  "H" ++ toString (min level 3)

/-- The recursion `process_bookmark(bookmark_item, level)`: a list is traversed element by
element at the same level; a node emits one entry iff its stripped title is
longer than 2 characters, and its children are then processed at `level + 1`
(whether or not the entry was emitted). -/
def process_bookmark : BItem → Nat → List OutlineEntry
  | BItem.group [], _ => []
  | BItem.group (i :: rest), level =>
    process_bookmark i level ++ process_bookmark (BItem.group rest) level
  | BItem.node title dest children, level =>
    (if 2 < (pyStrip title).length
     then [⟨hLevel level, pyStrip title, destPage dest⟩] else []) ++
    process_bookmark (BItem.group children) (level + 1)
termination_by item _ => sizeOf item
decreasing_by
  · simp
    omega
  · simp
  · simp
    have h1 : 0 < sizeOf title := by cases title <;> simp <;> omega
    omega

/-- A bookmark node of the specification's data model (`BookmarkNode`). -/
inductive BNode where
  | mk (title : List Char) (dest : Option Nat) (children : List BNode)

/-- The specification's pre-order depth-first flattening of a bookmark forest:
a visited node emits one entry iff its trimmed title is longer than 2 — level
`H{min(depth,3)}`, page the resolved destination page (1-indexed) or 1 — and
its children follow at `depth + 1`, before its right siblings. -/
def flattenForest : List BNode → Nat → List OutlineEntry
  | [], _ => []
  | BNode.mk title dest children :: rest, depth =>
    (if 2 < (pyStrip title).length
     then [⟨hLevel depth, pyStrip title, destPage dest⟩] else []) ++
    flattenForest children (depth + 1) ++ flattenForest rest depth

mutual

/-- Embed a specification bookmark node into the source's input shape. -/
def toItem : BNode → BItem
  | BNode.mk title dest children => BItem.node title dest (toItems children)

/-- Embed a specification bookmark forest into the source's input shape. -/
def toItems : List BNode → List BItem
  | [] => []
  | n :: ns => toItem n :: toItems ns

end

theorem process_bookmark_toItems : ∀ (forest : List BNode) (level : Nat),
    process_bookmark (BItem.group (toItems forest)) level = flattenForest forest level
  | [], level => by
    simp [toItems, process_bookmark, flattenForest]
  | BNode.mk title dest children :: rest, level => by
    have ih1 := process_bookmark_toItems children (level + 1)
    have ih2 := process_bookmark_toItems rest level
    simp only [toItems, toItem]
    simp only [process_bookmark, flattenForest]
    rw [ih1, ih2, List.append_assoc]
termination_by forest _ => sizeOf forest
decreasing_by
  all_goals simp
  all_goals omega

/-- C1: flattening a bookmark forest handed to `process_bookmark` at level 1
equals the specification's pre-order depth-first flattening — an entry per
node whose trimmed title is longer than 2, level `H{min(depth,3)}` with depth
1 at the top and `depth+1` for children, and page the resolved destination
(1-indexed) or 1 on failure. -/
theorem bookmark_preorder_spec (forest : List BNode) :
    process_bookmark (BItem.group (toItems forest)) 1 = flattenForest forest 1 :=
  process_bookmark_toItems forest 1

end ProcessPdfs
